import Mathlib

/-!
Shallow embedding of the structurray crate (src/lib.rs): the proc-macro
attribute `faux_array` turns a field-less struct skeleton into a
pseudo-array struct with `field_count` fields `_<base62 i> : T`, each one
serde-renamed to the bare key `<base62 i>`.

The base62 codec lives in the external dependency
`ascii_basing::encoding::encode`, whose source is not part of this
repository; it is modelled from the specification (repeated division by
62 over the alphabet `0-9 a-z A-Z`, remainders reversed, `encode 0 = "0"`,
and no error path for any `u32` input).
-/

/-- Handle for a parsed type expression (syn::Type); the pipeline treats it
as an immutable value copied into every field descriptor. -/
abbrev TypeRef := String

/-- Modelled from the spec: the 62-character alphabet of the external
`ascii_basing` codec, ordered from least value (value 0) to greatest
(value 61). -/
def BASE62_ALPHABET : String :=
  "0123456789abcdefghijklmnopqrstuvwxyzABCDEFGHIJKLMNOPQRSTUVWXYZ"

/-- Digit-to-character table of the base62 codec. -/
def b62Char (d : Nat) : Char := BASE62_ALPHABET.data.getD d '?'

/-- Character-to-digit table (position in the alphabet); used only to reason
about injectivity of the encoding. -/
def b62Val (c : Char) : Nat := BASE62_ALPHABET.data.findIdx (fun x => x == c)

/-- Modelled from the spec: base-62 remainder digits of `n`, most significant
first (repeated division by 62, remainder sequence reversed; empty for 0).
The first argument is structural fuel; `n` itself is always enough fuel
because the quotient shrinks at every step. -/
def b62Aux : Nat → Nat → List Nat
  | _, 0 => []
  | 0, _ => []
  | fuel + 1, n + 1 => b62Aux fuel ((n + 1) / 62) ++ [(n + 1) % 62]

/-- Modelled from the spec: `ascii_basing::encoding::encode` — standard
positional base-62 conversion with the special case `encode 0 = "0"` and no
leading zero digits for positive inputs. -/
def encode (n : Nat) : String :=
  if n = 0 then "0" else String.mk ((b62Aux n n).map b62Char)

/-- Numeric value of a most-significant-first base-62 digit list. -/
def decList (l : List Nat) : Nat := l.foldl (fun a d => a * 62 + d) 0

/-- Reading an encoded string back through the alphabet, used to show the
codec is injective. -/
def decodeStr (s : String) : Nat := decList (s.data.map b62Val)

/-- Field descriptor of the data model: internal identifier, external serde
key (the rename string), and the field type. -/
structure FieldDescriptor where
  identifier : String
  external_key : String
  type : TypeRef
  deriving DecidableEq, Repr

/-- Error taxonomy of the argument pipeline; each variant corresponds to one
`expect` call in lib.rs lines 105-107: `MissingTypeArgument` is the message
"No arguments were found", `InvalidTypeArgument` is "could not be converted
to a type", `MissingCountArgument` is "Only one argument was found", and
`InvalidCountArgument` is "could not be parsed to a u32". -/
inductive ArgError where
  | MissingTypeArgument
  | MissingCountArgument
  | InvalidTypeArgument
  | InvalidCountArgument
  deriving DecidableEq, Repr

/-- Parsed macro arguments (struct `Arguments` of lib.rs). -/
structure Arguments where
  field_count : Nat
  field_type : TypeRef
  deriving DecidableEq, Repr

deriving instance DecidableEq for Except

/-- Rust `str::split(',')` as used on the argument text (lib.rs line 104):
splits at every comma, with the empty string yielding one empty segment. -/
def splitComma : List Char → List (List Char)
  | [] => [[]]
  | c :: rest =>
    if c = ',' then [] :: splitComma rest
    else
      match splitComma rest with
      | [] => [[c]]
      | s :: ss => (c :: s) :: ss

/-- Rust `str::trim` (lib.rs line 107), restricted to ASCII whitespace. -/
def rustTrim (l : List Char) : List Char :=
  ((l.dropWhile Char.isWhitespace).reverse.dropWhile Char.isWhitespace).reverse

/-- Rust `u32::from_str` (the `.parse()` on lib.rs line 107): an optional
leading plus sign, then one or more ASCII digits, and the value must be
below 2^32; anything else (empty text, a minus sign, stray characters)
fails. -/
def parseU32 (l : List Char) : Option Nat :=
  let ds := match l with
    | '+' :: rest => rest
    | other => other
  if ds ≠ [] ∧ ds.all Char.isDigit then
    let v := ds.foldl (fun a c => a * 10 + (c.toNat - 48)) 0
    if v < 4294967296 then some v else none
  else none

/-- Argument handling of `faux_array` (lib.rs lines 103-107): split the raw
argument text at every comma, hand the first segment to the external type
parser `tp` (syn), then trim the second segment and parse it as a u32. Each
`expect` in the source becomes the corresponding `ArgError`. -/
def parseArgs (tp : String → Option TypeRef) (raw : String) :
    Except ArgError Arguments :=
  match splitComma raw.data with
  | [] => Except.error ArgError.MissingTypeArgument
  | first :: rest =>
    match tp (String.mk first) with
    | none => Except.error ArgError.InvalidTypeArgument
    | some t =>
      match rest with
      | [] => Except.error ArgError.MissingCountArgument
      | second :: _ =>
        match parseU32 (rustTrim second) with
        | none => Except.error ArgError.InvalidCountArgument
        | some n => Except.ok { field_count := n, field_type := t }

/-- Descriptor built by one iteration of the loop of lib.rs 120-128:
`copyscore` becomes `"_" ++ encode i`, the pushed rename string is
`encode i`, and the field type is the first macro argument. -/
def descriptor (t : TypeRef) (i : Nat) : FieldDescriptor :=
  { identifier := "_" ++ encode i, external_key := encode i, type := t }

/-- While loop of lib.rs 120-128, with `looper` the loop counter and the
second argument the number of iterations left (`field_count - looper`). -/
def synthFrom (t : TypeRef) (looper : Nat) : Nat → List FieldDescriptor
  | 0 => []
  | r + 1 => descriptor t looper :: synthFrom t (looper + 1) r

/-- Field synthesis: the full loop, indices 0 to `count - 1` in ascending
order. -/
def synthesize (t : TypeRef) (count : Nat) : List FieldDescriptor :=
  synthFrom t 0 count

/-- Modelled from the spec: `ascii_basing::encoding::encode` has a fallible
`Result` signature (guarded by `expect` on lib.rs line 122), but per the
spec "The codec never fails for any `u32` input — there is no error path";
the crate's source is not part of this repository. -/
def encodeChecked (n : Nat) : Option String := some (encode n)

/-- The loop of lib.rs 120-128 with the fallible signature of `encode`
kept: an `Err` from the codec at any index would abort synthesis. -/
def synthFromChecked (t : TypeRef) (looper : Nat) :
    Nat → Option (List FieldDescriptor)
  | 0 => some []
  | r + 1 =>
    match encodeChecked looper with
    | none => none
    | some key =>
      match synthFromChecked t (looper + 1) r with
      | none => none
      | some tail =>
        some ({ identifier := "_" ++ key, external_key := key, type := t } :: tail)

/-- Parsed struct skeleton (syn::ItemStruct, lib.rs lines 109-113):
attributes, visibility, name and generics are kept as handles; the fields
of the input declaration are carried so the embedding can show they are
dropped. -/
structure ItemStruct where
  attrs : List String
  vis : String
  ident : String
  generics : String
  fields : List FieldDescriptor
  deriving DecidableEq, Repr

/-- Skeleton assembly (the quote! block, lib.rs 129-136): the output
re-emits the input attributes, visibility, name and generics, and its field
list is exactly the synthesized one; the input field list is never read. -/
def assemble (s : ItemStruct) (t : TypeRef) (count : Nat) : ItemStruct :=
  { attrs := s.attrs, vis := s.vis, ident := s.ident, generics := s.generics,
    fields := synthesize t count }

/-- Whole `faux_array` pipeline after syn has parsed the annotated item:
parse the arguments, then assemble the output declaration. -/
def faux_array (tp : String → Option TypeRef) (args : String)
    (actual : ItemStruct) : Except ArgError ItemStruct :=
  match parseArgs tp args with
  | Except.error e => Except.error e
  | Except.ok a => Except.ok (assemble actual a.field_type a.field_count)

/-- Modelled from the spec: the nesting-aware scanner of §4.2/§9 — the first
argument segment ends at the first comma at zero bracket/paren depth. It
exists only to compare the spec's intended split with the naive
`splitComma` of the source. -/
def topLevelFirst : List Char → Nat → List Char
  | [], _ => []
  | c :: rest, depth =>
    if c = ',' ∧ depth = 0 then []
    else if c = '<' ∨ c = '(' ∨ c = '[' then c :: topLevelFirst rest (depth + 1)
    else if c = '>' ∨ c = ')' ∨ c = ']' then c :: topLevelFirst rest (depth - 1)
    else c :: topLevelFirst rest depth

/-- Concrete stand-in for the external type parser, used in witnesses: it
accepts a nonempty alphanumeric token (as syn does for "u8" or "T") and
rejects the empty string or anything with punctuation (as syn does for ""
and for the unbalanced "Pair<A"). -/
def sampleParseType (s : String) : Option TypeRef :=
  if s ≠ "" ∧ s.data.all Char.isAlphanum then some s else none

theorem b62Aux_zero (fuel : Nat) : b62Aux fuel 0 = [] := by
  cases fuel <;> rfl

theorem decList_append_digit (l : List Nat) (d : Nat) :
    decList (l ++ [d]) = decList l * 62 + d := by
  simp [decList, List.foldl_append]

theorem decList_b62Aux : ∀ fuel n, n ≤ fuel → decList (b62Aux fuel n) = n := by
  intro fuel
  induction fuel with
  | zero =>
    intro n hn
    interval_cases n
    simp [b62Aux, decList]
  | succ f ih =>
    intro n hn
    cases n with
    | zero => simp [b62Aux, decList]
    | succ m =>
      have hq : (m + 1) / 62 ≤ f := by
        have h1 : (m + 1) / 62 < m + 1 := Nat.div_lt_self (Nat.succ_pos m) (by norm_num)
        omega
      rw [b62Aux, decList_append_digit, ih _ hq]
      omega

theorem b62Aux_lt : ∀ fuel n d, d ∈ b62Aux fuel n → d < 62 := by
  intro fuel
  induction fuel with
  | zero =>
    intro n d hd
    cases n <;> simp [b62Aux] at hd
  | succ f ih =>
    intro n d hd
    cases n with
    | zero => simp [b62Aux] at hd
    | succ m =>
      rw [b62Aux] at hd
      rcases List.mem_append.mp hd with h | h
      · exact ih _ _ h
      · rcases List.mem_singleton.mp h with rfl
        exact Nat.mod_lt _ (by norm_num)

theorem b62Val_b62Char : ∀ d, d < 62 → b62Val (b62Char d) = d := by decide

theorem map_b62Val_map_b62Char :
    ∀ l : List Nat, (∀ d ∈ l, d < 62) → (l.map b62Char).map b62Val = l := by
  intro l
  induction l with
  | nil => intro _; rfl
  | cons d l ih =>
    intro h
    simp only [List.map_cons, List.cons.injEq]
    constructor
    · exact b62Val_b62Char d (h d (List.mem_cons_self d l))
    · exact ih (fun x hx => h x (List.mem_cons_of_mem d hx))

theorem decodeStr_encode (n : Nat) : decodeStr (encode n) = n := by
  by_cases h0 : n = 0
  · subst h0; decide
  · rw [encode, if_neg h0]
    show decList (((b62Aux n n).map b62Char).map b62Val) = n
    rw [map_b62Val_map_b62Char _ (fun d hd => b62Aux_lt n n d hd)]
    exact decList_b62Aux n n le_rfl

theorem encode_injective {m n : Nat} (h : encode m = encode n) : m = n := by
  rw [← decodeStr_encode m, ← decodeStr_encode n, h]

theorem string_append_left_cancel {a s t : String} (h : a ++ s = a ++ t) :
    s = t := by
  obtain ⟨da⟩ := a
  obtain ⟨ds⟩ := s
  obtain ⟨dt⟩ := t
  have h2 : da ++ ds = da ++ dt := congrArg String.data h
  have h3 : ds = dt := List.append_cancel_left h2
  rw [h3]

theorem b62Char_ne_underscore : ∀ d, d < 62 → b62Char d ≠ '_' := by decide

theorem encode_data_ne_underscore (n : Nat) :
    ∀ c ∈ (encode n).data, c ≠ '_' := by
  intro c hc
  by_cases h0 : n = 0
  · subst h0
    have h1 : (encode 0).data = ['0'] := rfl
    rw [h1] at hc
    rcases List.mem_singleton.mp hc with rfl
    decide
  · rw [encode, if_neg h0] at hc
    have hc2 : c ∈ (b62Aux n n).map b62Char := hc
    rcases List.mem_map.mp hc2 with ⟨d, hd, rfl⟩
    exact b62Char_ne_underscore d (b62Aux_lt n n d hd)

theorem b62Aux_head_nonzero :
    ∀ fuel n, 0 < n → n ≤ fuel →
      ∃ d l, b62Aux fuel n = d :: l ∧ 0 < d ∧ d < 62 := by
  intro fuel
  induction fuel with
  | zero => intro n h1 h2; omega
  | succ f ih =>
    intro n h1 h2
    cases n with
    | zero => omega
    | succ m =>
      rw [b62Aux]
      by_cases hq : (m + 1) / 62 = 0
      · rw [hq, b62Aux_zero]
        refine ⟨(m + 1) % 62, [], rfl, ?_, Nat.mod_lt _ (by norm_num)⟩
        have hdm := Nat.div_add_mod (m + 1) 62
        have hml : (m + 1) % 62 < 62 := Nat.mod_lt _ (by norm_num)
        omega
      · have hq2 : (m + 1) / 62 ≤ f := by
          have := Nat.div_lt_self (Nat.succ_pos m) (show 1 < 62 by norm_num)
          omega
        rcases ih ((m + 1) / 62) (Nat.pos_of_ne_zero hq) hq2 with ⟨d, l, hdl, hd0, hd62⟩
        exact ⟨d, l ++ [(m + 1) % 62], by rw [hdl]; rfl, hd0, hd62⟩

theorem encode_pos_head_ne_zero :
    ∀ n c, 0 < n → (encode n).data.head? = some c → c ≠ '0' := by
  intro n c hn hh
  rw [encode, if_neg (by omega)] at hh
  rcases b62Aux_head_nonzero n n hn le_rfl with ⟨d, l, hdl, hd0, hd62⟩
  have hh2 : ((b62Aux n n).map b62Char).head? = some c := hh
  rw [hdl] at hh2
  simp only [List.map_cons, List.head?_cons, Option.some.injEq] at hh2
  subst hh2
  intro hc
  have h1 := b62Val_b62Char d hd62
  rw [hc] at h1
  have h2 : b62Val '0' = 0 := by decide
  omega

theorem synthFrom_length : ∀ r (t : TypeRef) l, (synthFrom t l r).length = r := by
  intro r
  induction r with
  | zero => intro t l; rfl
  | succ m ih =>
    intro t l
    rw [synthFrom]
    simp [ih t (l + 1)]

theorem synthFrom_getElem? :
    ∀ r (t : TypeRef) l k,
      (synthFrom t l r)[k]? = if k < r then some (descriptor t (l + k)) else none := by
  intro r
  induction r with
  | zero => intro t l k; simp [synthFrom]
  | succ m ih =>
    intro t l k
    cases k with
    | zero => simp [synthFrom]
    | succ k2 =>
      rw [synthFrom]
      simp only [List.getElem?_cons_succ, ih t (l + 1) k2]
      by_cases hk : k2 < m
      · rw [if_pos hk, if_pos (by omega)]
        have h : l + 1 + k2 = l + (k2 + 1) := by omega
        rw [h]
      · rw [if_neg hk, if_neg (by omega)]

theorem mem_synthFrom :
    ∀ r (t : TypeRef) l f, f ∈ synthFrom t l r → ∃ i, f = descriptor t i := by
  intro r
  induction r with
  | zero => intro t l f hf; simp [synthFrom] at hf
  | succ m ih =>
    intro t l f hf
    rw [synthFrom] at hf
    rcases List.mem_cons.mp hf with h | h
    · exact ⟨l, h⟩
    · exact ih t (l + 1) f h

theorem synthFromChecked_eq :
    ∀ r (t : TypeRef) l, synthFromChecked t l r = some (synthFrom t l r) := by
  intro r
  induction r with
  | zero => intro t l; rfl
  | succ m ih =>
    intro t l
    rw [synthFromChecked, synthFrom, ih]
    rfl

theorem splitComma_ne_nil : ∀ l : List Char, splitComma l ≠ [] := by
  intro l
  induction l with
  | nil => simp [splitComma]
  | cons c rest ih =>
    rw [splitComma]
    by_cases hc : c = ','
    · simp [hc]
    · rw [if_neg hc]
      cases h : splitComma rest <;> simp

/-- C1: for distinct indices `i ≠ j` below any `field_count` up to
`u32::MAX`, the generated identifier and the generated external key of `i`
differ from those of `j`, because the base62 encoding is injective. -/
theorem encode_based_names_pairwise_distinct (t : TypeRef) (N i j : Nat)
    (hN : N ≤ 4294967295) (hi : i < N) (hj : j < N) (hij : i ≠ j) :
    (descriptor t i).identifier ≠ (descriptor t j).identifier ∧
    (descriptor t i).external_key ≠ (descriptor t j).external_key := by
  constructor
  · intro h
    simp only [descriptor] at h
    exact hij (encode_injective (string_append_left_cancel h))
  · intro h
    simp only [descriptor] at h
    exact hij (encode_injective h)

theorem encode_based_names_pairwise_distinct_witness :
    (descriptor "u8" 61).identifier ≠ (descriptor "u8" 62).identifier ∧
    (descriptor "u8" 61).external_key ≠ (descriptor "u8" 62).external_key :=
  encode_based_names_pairwise_distinct "u8" 63 61 62 (by decide) (by decide)
    (by decide) (by decide)

/-- C2: every generated descriptor's identifier is exactly the underscore
character prepended to its external serde rename string, and the rename
string itself never starts with the underscore. -/
theorem identifier_is_underscore_key (t : TypeRef) (n : Nat)
    (f : FieldDescriptor) (hf : f ∈ synthesize t n) :
    f.identifier = "_" ++ f.external_key ∧
    f.external_key.data.head? ≠ some '_' := by
  rcases mem_synthFrom n t 0 f hf with ⟨i, rfl⟩
  refine ⟨rfl, ?_⟩
  intro h
  have h2 : (encode i).data.head? = some '_' := h
  cases hl : (encode i).data with
  | nil => rw [hl] at h2; simp at h2
  | cons c l =>
    rw [hl] at h2
    simp only [List.head?_cons, Option.some.injEq] at h2
    subst h2
    exact encode_data_ne_underscore i '_' (hl ▸ List.mem_cons_self '_' l) rfl

theorem identifier_is_underscore_key_witness :
    (descriptor "T" 0).identifier = "_" ++ (descriptor "T" 0).external_key ∧
    (descriptor "T" 0).external_key.data.head? ≠ some '_' :=
  identifier_is_underscore_key "T" 1 (descriptor "T" 0) (by decide)

/-- C3: synthesis for a validated count `N` and type `T` yields exactly `N`
descriptors, in ascending index order (the k-th one is the descriptor of
index k), each carrying type `T`, and assembly keeps that list as the
output's field list. -/
theorem synthesize_cardinality_order (t : TypeRef) (N : Nat) :
    (synthesize t N).length = N ∧
    (∀ k, k < N → (synthesize t N)[k]? = some (descriptor t k)) ∧
    (∀ f, f ∈ synthesize t N → f.type = t) ∧
    (∀ s : ItemStruct, (assemble s t N).fields = synthesize t N) := by
  refine ⟨synthFrom_length N t 0, ?_, ?_, fun s => rfl⟩
  · intro k hk
    rw [synthesize, synthFrom_getElem? N t 0 k, if_pos hk, Nat.zero_add]
  · intro f hf
    rcases mem_synthFrom N t 0 f hf with ⟨i, rfl⟩
    rfl

theorem synthesize_cardinality_order_witness :
    (synthesize "u8" 3)[1]? = some (descriptor "u8" 1) ∧
    (descriptor "u8" 0).type = "u8" :=
  ⟨(synthesize_cardinality_order "u8" 3).2.1 1 (by decide),
   (synthesize_cardinality_order "u8" 3).2.2.1 (descriptor "u8" 0) (by decide)⟩

/-- C4: base62 base cases — `encode 0 = "0"`, `encode 61 = "Z"`,
`encode 62 = "10"`, `encode 63 = "11"`, with `'0'` valued 0 and `'Z'` valued
61 in the alphabet, no leading zero digit for positive inputs; hence field
index 61 is `_Z` with key `"Z"` and field index 62 is `_10` with key
`"10"`. -/
theorem base62_base_cases :
    encode 0 = "0" ∧ encode 61 = "Z" ∧ encode 62 = "10" ∧ encode 63 = "11" ∧
    b62Char 0 = '0' ∧ b62Char 61 = 'Z' ∧
    (∀ n c, 0 < n → (encode n).data.head? = some c → c ≠ '0') ∧
    (synthesize "u8" 62)[61]? =
      some { identifier := "_Z", external_key := "Z", type := "u8" } ∧
    (synthesize "u8" 63)[62]? =
      some { identifier := "_10", external_key := "10", type := "u8" } :=
  ⟨by decide, by decide, by decide, by decide, by decide, by decide,
   encode_pos_head_ne_zero, by decide, by decide⟩

theorem base62_base_cases_witness : ('1' : Char) ≠ '0' :=
  base62_base_cases.2.2.2.2.2.2.1 62 '1' (by decide) (by decide)

/-- C5: assembly preserves the skeleton's attributes, visibility, name and
generic parameters verbatim, replaces the field list wholesale with the
synthesized fields, and its output does not depend on any fields already
present on the input skeleton. -/
theorem assemble_preserves_skeleton (s : ItemStruct) (t : TypeRef) (n : Nat) :
    (assemble s t n).attrs = s.attrs ∧
    (assemble s t n).vis = s.vis ∧
    (assemble s t n).ident = s.ident ∧
    (assemble s t n).generics = s.generics ∧
    (assemble s t n).fields = synthesize t n ∧
    (∀ fs : List FieldDescriptor,
      assemble { s with fields := fs } t n = assemble s t n) :=
  ⟨rfl, rfl, rfl, rfl, rfl, fun _ => rfl⟩

/-- C6 (amended): on the empty argument text the split yields one empty
segment, which is handed to the external type parser; since the empty
string is not a type, the pipeline fails with `InvalidTypeArgument`, not
with `MissingTypeArgument`. -/
theorem empty_args_invalid_type (tp : String → Option TypeRef)
    (h : tp "" = none) :
    parseArgs tp "" = Except.error ArgError.InvalidTypeArgument := by
  have step : parseArgs tp "" =
      match tp "" with
      | none => Except.error ArgError.InvalidTypeArgument
      | some _ => Except.error ArgError.MissingCountArgument := rfl
  rw [step, h]

theorem empty_args_invalid_type_witness :
    parseArgs sampleParseType "" = Except.error ArgError.InvalidTypeArgument :=
  empty_args_invalid_type sampleParseType (by decide)

/-- C6 (counterexample to the claim as stated): with a type parser that
rejects the empty string (as syn does), the empty argument text does not
produce `MissingTypeArgument`; it produces `InvalidTypeArgument`. -/
theorem empty_args_not_missing_type :
    parseArgs sampleParseType "" ≠ Except.error ArgError.MissingTypeArgument ∧
    parseArgs sampleParseType "" = Except.error ArgError.InvalidTypeArgument := by
  decide

/-- C7: the source splits at every comma, not only at top-level ones: for
the argument text `"Pair<A, B>, 3"` the first segment handed to the type
parser is the unbalanced `"Pair<A"`, while the spec's nesting-aware scanner
would keep `"Pair<A, B>"` whole; with a type parser rejecting `"Pair<A"`
the invocation fails with `InvalidTypeArgument` instead of recovering the
type. The claim's no-separator clause does hold: `"u8"` alone gives
`MissingCountArgument`. -/
theorem naive_comma_split_breaks_nested_generic :
    (splitComma "Pair<A, B>, 3".data).head? = some "Pair<A".data ∧
    topLevelFirst "Pair<A, B>, 3".data 0 = "Pair<A, B>".data ∧
    "Pair<A".data ≠ "Pair<A, B>".data ∧
    parseArgs sampleParseType "Pair<A, B>, 3" =
      Except.error ArgError.InvalidTypeArgument ∧
    parseArgs sampleParseType "u8" = Except.error ArgError.MissingCountArgument := by
  decide

/-- C8: once the first segment parses as a type, the second comma-separated
segment is trimmed and parsed as a u32: failure gives
`InvalidCountArgument`, success makes the value the `field_count`. -/
theorem count_segment_validation (tp : String → Option TypeRef) (raw : String)
    (first second : List Char) (rest : List (List Char)) (t : TypeRef)
    (hsplit : splitComma raw.data = first :: second :: rest)
    (htp : tp (String.mk first) = some t) :
    (parseU32 (rustTrim second) = none →
      parseArgs tp raw = Except.error ArgError.InvalidCountArgument) ∧
    (∀ n, parseU32 (rustTrim second) = some n →
      parseArgs tp raw = Except.ok { field_count := n, field_type := t }) := by
  constructor
  · intro hn
    simp only [parseArgs, hsplit, htp, hn]
  · intro n hn
    simp only [parseArgs, hsplit, htp, hn]

theorem count_segment_validation_witness :
    parseArgs sampleParseType "u8, -1" =
      Except.error ArgError.InvalidCountArgument ∧
    parseArgs sampleParseType "u8, 3" =
      Except.ok { field_count := 3, field_type := "u8" } :=
  ⟨(count_segment_validation sampleParseType "u8, -1" "u8".data " -1".data []
      "u8" (by decide) (by decide)).1 (by decide),
   (count_segment_validation sampleParseType "u8, 3" "u8".data " 3".data []
      "u8" (by decide) (by decide)).2 3 (by decide)⟩

/-- C9: with the fallible codec signature kept, synthesis always succeeds
and equals the infallible loop — the error branch guarding the encode
result is unreachable for every validated count. -/
theorem synthesis_never_fails (t : TypeRef) (count : Nat) :
    synthFromChecked t 0 count = some (synthesize t count) := by
  rw [synthesize]
  exact synthFromChecked_eq count t 0

/-- C10: splitting any argument text on commas yields at least one segment,
so the branch reporting that no arguments were found is unreachable, and
the first segment is always handed to the type parser. -/
theorem first_segment_always_present :
    (∀ l : List Char, splitComma l ≠ []) ∧
    (∀ tp raw, parseArgs tp raw ≠ Except.error ArgError.MissingTypeArgument) ∧
    (∀ tp raw, tp (String.mk (splitComma raw.data).headI) = none →
      parseArgs tp raw = Except.error ArgError.InvalidTypeArgument) := by
  refine ⟨splitComma_ne_nil, ?_, ?_⟩
  · intro tp raw
    cases hs : splitComma raw.data with
    | nil => exact absurd hs (splitComma_ne_nil _)
    | cons first rest =>
      cases htp : tp (String.mk first) with
      | none => simp [parseArgs, hs, htp]
      | some t =>
        cases rest with
        | nil => simp [parseArgs, hs, htp]
        | cons sec rest2 =>
          cases hp : parseU32 (rustTrim sec) with
          | none => simp [parseArgs, hs, htp, hp]
          | some n => simp [parseArgs, hs, htp, hp]
  · intro tp raw h
    cases hs : splitComma raw.data with
    | nil => exact absurd hs (splitComma_ne_nil _)
    | cons first rest =>
      rw [hs] at h
      have h2 : tp (String.mk first) = none := h
      simp [parseArgs, hs, h2]

theorem first_segment_always_present_witness :
    parseArgs sampleParseType "!" = Except.error ArgError.InvalidTypeArgument :=
  first_segment_always_present.2.2 sampleParseType "!" (by decide)
